import Mathlib

/-!
Shallow embedding of the duplicate-song grouping program
(`groups.py`, `cache.py`) and proofs about its specification claims.

Conventions of the embedding:
* A track record (Python dict) is modelled by the structure `Song`, holding
  exactly the fields the core reads.  Fields that the code always converts
  with `int(...)` on well-formed records (`durationMillis`, `playCount`,
  `creationTimestamp`, `recentTimestamp`) are modelled as `Nat`
  (the spec's data model declares them integral and non-negative; missing or
  malformed such fields are a fatal precondition violation per the spec).
* `trackNumber` may be an int, a string, or None in the data, and the code
  feeds it to Python `int(...)` inside a `try`, so it is modelled by the sum
  type `TrackVal` and the fallible conversion `pyInt`.
* Python exceptions are modelled with `Except PyErr`.
* The external fuzzy string `ratio` (the `fuzzywuzzy` library, not part of
  this repository) is a parameter `R : String → String → Nat` threaded
  through every scoring definition; claims that need its documented range
  add the hypothesis `∀ a b, R a b ≤ 100`.
* Python dicts (insertion ordered) are modelled as association lists
  `List (String × List Song)`; the helpers `assocUpdate` / `dictInsert`
  reproduce the ordered-dict update semantics used by the code.
* `sorted` (guaranteed stable in Python, also with `reverse=True`) is
  modelled by the stable insertion sort `isortBy`.
* Where Python iterates a two-element set (`{song[key] for song in ...}`),
  the embedding fixes the (song1, song2) order; no claim depends on the
  iteration order of such a set.
-/

/-- Python exceptions that the embedded code can raise. -/
inductive PyErr where
  | typeError
  | valueError
  | keyError
  | indexError
  | zeroDivisionError
  | unicodeDecodeError
deriving DecidableEq, Repr

/-- A `trackNumber` value as found in the track dicts: an int, a string,
or Python `None`. -/
inductive TrackVal where
  | intV (n : Int)
  | strV (s : String)
  | noneV
deriving DecidableEq, Repr

/-- Decimal digit run, accumulating the value; `none` on a non-digit. -/
def parseDigitsAux (acc : Nat) : List Char → Option Nat
  | [] => some acc
  | c :: cs =>
    if 48 ≤ c.toNat ∧ c.toNat ≤ 57 then
      parseDigitsAux (acc * 10 + (c.toNat - 48)) cs
    else none

/-- Python `int(...)` applied to a string: an optional sign followed by a
non-empty digit run (Python additionally strips surrounding whitespace and
allows digit-group underscores; no claim depends on those inputs). -/
def pyIntOfString (s : String) : Option Int :=
  match s.data with
  | [] => none
  | '-' :: cs =>
    if cs.isEmpty then none
    else (parseDigitsAux 0 cs).map (fun n => -(n : Int))
  | '+' :: cs =>
    if cs.isEmpty then none
    else (parseDigitsAux 0 cs).map (fun n => (n : Int))
  | cs => (parseDigitsAux 0 cs).map (fun n => (n : Int))

/-- Python `int(value)` on a `TrackVal`: ints pass through, strings are
parsed (failure is a `ValueError`), `None` raises a `TypeError`. -/
def pyInt : TrackVal → Except PyErr Int
  | .intV n => .ok n
  | .strV s =>
    match pyIntOfString s with
    | some n => .ok n
    | none => .error .valueError
  | .noneV => .error .typeError

/-- One track record, with the fields the core reads (`song.py` documents
the same field set). -/
structure Song where
  id : String
  trackNumber : TrackVal
  album : String
  albumArtist : String
  artist : String
  title : String
  durationMillis : Nat
  playCount : Nat
  creationTimestamp : Nat
  recentTimestamp : Nat
deriving DecidableEq, Repr

/-- `SongPair._get_string_score`: 100 when the two values coincide
(the Python set has one element), otherwise the external fuzzy ratio. -/
def string_score (R : String → String → Nat) (a b : String) : Nat :=
  if a = b then 100 else R a b

/-- `SongPair.track_score`: 100 when the raw values coincide; otherwise the
code evaluates `int` on each value inside `try ... except TypeError`:
a `TypeError` is swallowed (score 0), a `ValueError` propagates, and when
both conversions succeed the score is 50 on numeric equality else 0. -/
def track_score (v1 v2 : TrackVal) : Except PyErr Nat :=
  if v1 = v2 then .ok 100
  else
    match pyInt v1 with
    | .error .typeError => .ok 0
    | .error e => .error e
    | .ok n1 =>
      match pyInt v2 with
      | .error .typeError => .ok 0
      | .error e => .error e
      | .ok n2 => if n1 = n2 then .ok 50 else .ok 0

/-- `SongPair.duration_score`: 100 on equal millisecond values, otherwise
`100 * int(min/max)`; for natural durations the Python float truncation is
the floor division `min / max`. -/
def duration_score (d1 d2 : Nat) : Nat :=
  if d1 = d2 then 100 else 100 * (min d1 d2 / max d1 d2)

/-- `SongPair.get_scores`, in the fixed order
(track, duration, album, album_artist, artist, title).  The only fallible
entry is the track score, evaluated first, so eagerly building the list is
observationally the Python generator. -/
def get_scores (R : String → String → Nat) (a b : Song) :
    Except PyErr (List Nat) :=
  match track_score a.trackNumber b.trackNumber with
  | .error e => .error e
  | .ok tr =>
    .ok [tr,
         duration_score a.durationMillis b.durationMillis,
         string_score R a.album b.album,
         string_score R a.albumArtist b.albumArtist,
         string_score R a.artist b.artist,
         string_score R a.title b.title]

/-- `SongPair.is_similar`: every score strictly greater than 90. -/
def is_similar (R : String → String → Nat) (a b : Song) :
    Except PyErr Bool :=
  match get_scores R a b with
  | .error e => .error e
  | .ok scores => .ok (scores.all (fun x => decide (90 < x)))

/-- `SongPair.final_score`: arithmetic mean of the six scores, as an exact
rational (Python computes a float; all values here are small integers
divided by 6, where float arithmetic is exact enough for every comparison
the code performs against the literal 100). -/
def final_score (R : String → String → Nat) (a b : Song) :
    Except PyErr ℚ :=
  match get_scores R a b with
  | .error e => .error e
  | .ok scores => .ok ((scores.sum : ℚ) / (scores.length : ℚ))

/-- `itertools.combinations(group, 2)` in its order: all (earlier, later)
pairs. -/
def get_all_pairs : List Song → List (Song × Song)
  | [] => []
  | x :: xs => (xs.map (fun y => (x, y))) ++ get_all_pairs xs

/-- Error-propagating map, the shape of evaluating `sum(gen)` over a
generator of fallible values. -/
def mapE (f : α → Except PyErr β) : List α → Except PyErr (List β)
  | [] => .ok []
  | x :: xs =>
    match f x with
    | .error e => .error e
    | .ok y =>
      match mapE f xs with
      | .error e => .error e
      | .ok ys => .ok (y :: ys)

/-- `SongGroup.get_similarity`: mean of `final_score` over all pairs;
on a singleton or empty group the Python division by `len(pairs) = 0`
raises `ZeroDivisionError`. -/
def get_similarity (R : String → String → Nat) (g : List Song) :
    Except PyErr ℚ :=
  match mapE (fun p => final_score R p.1 p.2) (get_all_pairs g) with
  | .error e => .error e
  | .ok finals =>
    if (get_all_pairs g).length = 0 then .error .zeroDivisionError
    else .ok (finals.sum / ((get_all_pairs g).length : ℚ))

/-- The decision of `SongGroup.auto_manage`: `false` (no automatic
deletion) when the group similarity is `< 100`, else `true` (duplicates
deleted with no prompt). -/
def auto_manage (R : String → String → Nat) (g : List Song) :
    Except PyErr Bool :=
  match get_similarity R g with
  | .error e => .error e
  | .ok s => if s < 100 then .ok false else .ok true

/-- How `delete_duplicates` routes one multi-member group. -/
inductive RouteAction where
  | autoResolve
  | interactive
deriving DecidableEq, Repr

/-- The per-group branch of `delete_duplicates`:
`if not group.auto_manage(api): group.confirm_delete(api)`. -/
def resolve_action (R : String → String → Nat) (g : List Song) :
    Except PyErr RouteAction :=
  match auto_manage R g with
  | .error e => .error e
  | .ok true => .ok .autoResolve
  | .ok false => .ok .interactive

/-- `is_similar_to_other_songs`: `all(pair.is_similar() ...)` over the
members in order, short-circuiting, propagating the first exception. -/
def is_similar_to_other_songs (R : String → String → Nat) (song : Song) :
    List Song → Except PyErr Bool
  | [] => .ok true
  | o :: rest =>
    match is_similar R song o with
    | .error e => .error e
    | .ok true => is_similar_to_other_songs R song rest
    | .ok false => .ok false

/-- `get_similar_song_id`: first key (dict iteration order) of a group all
of whose members are similar to `song`. -/
def get_similar_song_id (R : String → String → Nat) (song : Song) :
    List (String × List Song) → Except PyErr (Option String)
  | [] => .ok none
  | (sid, members) :: rest =>
    match is_similar_to_other_songs R song members with
    | .error e => .error e
    | .ok true => .ok (some sid)
    | .ok false => get_similar_song_id R song rest

/-- `groups[key].append(song)` with the `except KeyError` fallback
`groups[key] = [song]`: append to the entry of `key`, or add a fresh
entry at the end (Python dicts keep insertion order). -/
def assocUpdate (key : String) (song : Song) :
    List (String × List Song) → List (String × List Song)
  | [] => [(key, [song])]
  | (k, ss) :: rest =>
    if k = key then (k, ss ++ [song]) :: rest
    else (k, ss) :: assocUpdate key song rest

/-- `add_song_to_correct_group`. -/
def add_song_to_correct_group (R : String → String → Nat) (song : Song)
    (groups : List (String × List Song)) :
    Except PyErr (List (String × List Song)) :=
  match get_similar_song_id R song groups with
  | .error e => .error e
  | .ok simId => .ok (assocUpdate (simId.getD song.id) song groups)

/-- Error-propagating left fold, the shape of the clustering loop. -/
def foldE (f : β → α → Except PyErr β) (init : β) : List α → Except PyErr β
  | [] => .ok init
  | x :: xs =>
    match f init x with
    | .error e => .error e
    | .ok b => foldE f b xs

/-- Python dict insertion `d[k] = v`: overwrite in place, else append. -/
def dictInsert (k : String) (v : List Song) :
    List (String × List Song) → List (String × List Song)
  | [] => [(k, v)]
  | (k0, v0) :: rest =>
    if k0 = k then (k, v) :: rest else (k0, v0) :: dictInsert k v rest

/-- The dict comprehension
`{songs[0]["id"]: songs for songs in partial_groups}` of `build_groups`;
an empty member list makes `songs[0]` raise `IndexError`. -/
def groups_from_checkpoint_aux (acc : List (String × List Song)) :
    List (List Song) → Except PyErr (List (String × List Song))
  | [] => .ok acc
  | [] :: _ => .error .indexError
  | (s :: ss) :: rest =>
    groups_from_checkpoint_aux (dictInsert s.id (s :: ss) acc) rest

/-- Rebuild the working group dict from a stored checkpoint. -/
def groups_from_checkpoint (chk : List (List Song)) :
    Except PyErr (List (String × List Song)) :=
  groups_from_checkpoint_aux [] chk

/-- The identifier set `{song["id"] for songs in groups.values() ...}`. -/
def seen_ids (groups : List (String × List Song)) : List String :=
  ((groups.map Prod.snd).flatten).map Song.id

/-- The sublist of the input that `build_groups` actually processes:
records whose identifier is not already in a checkpointed group. -/
def songs_to_process (groups0 : List (String × List Song))
    (songs : List Song) : List Song :=
  songs.filter (fun s => decide (s.id ∉ seen_ids groups0))

/-- `build_groups` without its I/O effects: the checkpoint read becomes the
`chk` argument, the periodic/interrupt checkpoint writes do not change the
returned groups. -/
def build_groups (R : String → String → Nat) (chk : List (List Song))
    (songs : List Song) : Except PyErr (List (String × List Song)) :=
  match groups_from_checkpoint chk with
  | .error e => .error e
  | .ok groups0 =>
    foldE (fun gs s => add_song_to_correct_group R s gs) groups0
      (songs_to_process groups0 songs)

/-- `cache_partial_groups` stores `list(groups.values())`. -/
def checkpoint_of (groups : List (String × List Song)) : List (List Song) :=
  groups.map Prod.snd

/-- What terminates one clustering run: an embedded Python exception, or
the operator's `KeyboardInterrupt`. -/
inductive RunErr where
  | py (e : PyErr)
  | interrupt
deriving DecidableEq, Repr

/-- The `for index, song in enumerate(...)` loop of `build_groups`, with
its observable effects made explicit: the first component of the result is
the sequence of checkpoint writes (`cache_partial_groups`), in order.
`intr = some i` means a `KeyboardInterrupt` arrives at the start of
iteration `i`; the surrounding `except KeyboardInterrupt` handler then
writes a final checkpoint of the current groups and re-raises. -/
def run_loop (R : String → String → Nat) (intr : Option Nat) :
    Nat → List Song → List (String × List Song) →
    List (List (List Song)) →
    List (List (List Song)) × Except RunErr (List (String × List Song))
  | _, [], groups, writes => (writes, .ok groups)
  | index, song :: rest, groups, writes =>
    if intr = some index then
      (writes ++ [checkpoint_of groups], .error .interrupt)
    else
      let writes1 :=
        if index % 100 = 0 then writes ++ [checkpoint_of groups]
        else writes
      match add_song_to_correct_group R song groups with
      | .error e => (writes1, .error (.py e))
      | .ok groups1 => run_loop R intr (index + 1) rest groups1 writes1

/-- `build_groups` with its checkpoint writes and interrupt behaviour made
explicit (the pure `build_groups` above is the `intr = none` result). -/
def build_groups_run (R : String → String → Nat) (intr : Option Nat)
    (chk : List (List Song)) (songs : List Song) :
    List (List (List Song)) × Except RunErr (List (String × List Song)) :=
  match groups_from_checkpoint chk with
  | .error e => ([], .error (.py e))
  | .ok groups0 =>
    run_loop R intr 0 (songs_to_process groups0 songs) groups0 []

/-- Stable insertion of `s` into `l`: `s` goes before the first element
`t` with `¬ lt t s`, so elements comparing equal keep their order. -/
def insortBy (lt : Song → Song → Bool) (s : Song) : List Song → List Song
  | [] => [s]
  | t :: ts => if lt t s then t :: insortBy lt s ts else s :: t :: ts

/-- Stable insertion sort; observationally Python's stable `sorted`. -/
def isortBy (lt : Song → Song → Bool) : List Song → List Song
  | [] => []
  | s :: ss => insortBy lt s (isortBy lt ss)

/-- The first sort key of `get_keep_song`:
`sorted(self.group, key=_get_creation)`, ascending creation timestamp. -/
def lt_creation (a b : Song) : Bool :=
  decide (a.creationTimestamp < b.creationTimestamp)

/-- The second sort of `get_keep_song`:
`sorted(by_added_date, key=_get_play_count, reverse=True)`, descending
play count (Python's `sorted` stays stable under `reverse=True`). -/
def lt_play_desc (a b : Song) : Bool :=
  decide (b.playCount < a.playCount)

/-- `SongGroup.get_keep_song`: head of the double stable sort; `none`
models the `IndexError` of `[0]` on an empty group. -/
def get_keep_song (g : List Song) : Option Song :=
  (isortBy lt_play_desc (isortBy lt_creation g)).head?

/-- `SongGroup.get_discard_songs`:
`[song for song in self.group if song != keep_song]` — whole-record
inequality against the kept record. -/
def get_discard_songs (g : List Song) : Option (List Song) :=
  (get_keep_song g).map (fun keep => g.filter (fun s => decide (s ≠ keep)))

/-- A JSON value, as `json.load` can produce it. -/
inductive JVal where
  | jnull
  | jbool (b : Bool)
  | jnum (q : ℚ)
  | jstr (s : String)
  | jarr (items : List JVal)
  | jobj (fields : List (String × JVal))

/-- First binding of a key in a JSON object's field list (`json.load`
keeps the last duplicate, but well-formed objects have unique keys; the
cache writer emits unique keys). -/
def jLookup (k : String) : List (String × JVal) → Option JVal
  | [] => none
  | (k0, v) :: rest => if k0 = k then some v else jLookup k rest

/-- Python subscription `value[k]` with a string key: a `KeyError` on a
dict without the key, a `TypeError` on any non-dict. -/
def jGetItem (v : JVal) (k : String) : Except PyErr JVal :=
  match v with
  | .jobj fields =>
    match jLookup k fields with
    | some w => .ok w
    | none => .error .keyError
  | _ => .error .typeError

/-- Coercion applied by Python arithmetic (`now - cache_timestamp`):
numbers pass through, booleans count as 0/1, anything else raises
`TypeError`. -/
def pyNum : JVal → Except PyErr ℚ
  | .jnum q => .ok q
  | .jbool b => .ok (if b then 1 else 0)
  | _ => .error .typeError

/-- What one cache file looks like to `get_cached`: opening can fail
(absent or unreadable file, an `IOError`); the bytes read inside
`json.load` can fail to decode as text (a `UnicodeDecodeError` — a
`ValueError` that is a subclass of neither `JSONDecodeError` nor
`IOError`, so the handler does not catch it); the decoded text can fail
JSON parsing (`JSONDecodeError`); or a JSON value is obtained. -/
inductive FileState where
  | ioError
  | badBytes
  | decodeError
  | json (v : JVal)

/-- `cache_outdated`: age strictly greater than 24 hours. -/
def cache_outdated (now ts : ℚ) : Bool :=
  decide (now - ts > 24 * (60 * 60))

/-- `get_cached`, with the ambient clock and the file's state explicit.
The `try` wraps the open and `json.load` but catches only
`(JSONDecodeError, IOError)`, so a `UnicodeDecodeError` raised while
reading the bytes propagates; the subsequent subscriptions and the age
arithmetic are outside the `try` altogether. -/
def get_cached (now : ℚ) (key : String) (fs : FileState) :
    Except PyErr (Option JVal) :=
  match fs with
  | .ioError => .ok none
  | .badBytes => .error .unicodeDecodeError
  | .decodeError => .ok none
  | .json cached =>
    match jGetItem cached "timestamp" with
    | .error e => .error e
    | .ok tsv =>
      match pyNum tsv with
      | .error e => .error e
      | .ok ts =>
        if cache_outdated now ts then .ok none
        else
          match jGetItem cached key with
          | .error e => .error e
          | .ok payload => .ok (some payload)

/-- A trivial stand-in for the external fuzzy ratio, used to instantiate
universally quantified theorems on concrete inputs. -/
def R0 : String → String → Nat := fun _ _ => 0

/-- Concrete track fixtures for instantiating the theorems. -/
def wsA : Song := ⟨"a", .intV 1, "al", "aa", "ar", "ti", 1000, 5, 100, 0⟩

def wsA2 : Song := ⟨"a2", .intV 1, "al", "aa", "ar", "ti", 1000, 2, 300, 0⟩

def wsB : Song := ⟨"b", .intV 2, "XX", "YY", "ZZ", "WW", 2000, 1, 50, 0⟩

/-- C6: the duration score is 100 exactly on identical millisecond values
and otherwise `100 * floor(min/max)`, which is 0 for distinct positive
durations; in particular 100000/100000 ↦ 100, 100000/50000 ↦ 0 and
100000/99999 ↦ 0. -/
theorem duration_score_spec (d1 d2 : Nat) (_h1 : 0 < d1) (_h2 : 0 < d2) :
    (d1 = d2 → duration_score d1 d2 = 100) ∧
    (d1 ≠ d2 → duration_score d1 d2 = 100 * (min d1 d2 / max d1 d2) ∧
      duration_score d1 d2 = 0) ∧
    duration_score 100000 100000 = 100 ∧
    duration_score 100000 50000 = 0 ∧
    duration_score 100000 99999 = 0 := by
  refine ⟨fun h => by simp [duration_score, h], fun h => ?_, by decide,
    by decide, by decide⟩
  have hlt : min d1 d2 < max d1 d2 := min_lt_max.mpr h
  have hdiv : min d1 d2 / max d1 d2 = 0 := Nat.div_eq_of_lt hlt
  constructor
  · simp [duration_score, h]
  · simp [duration_score, h, hdiv]

theorem duration_score_spec_witness :
    0 < 3 ∧ 0 < 5 ∧ duration_score 3 5 = 0 :=
  ⟨by decide, by decide, ((duration_score_spec 3 5 (by decide)
    (by decide)).2.1 (by decide)).2⟩

/-- C7 counterexample: a track-number value that fails to parse as an
integer (a non-numeric string) makes `track_score` raise `ValueError`
rather than fall back to 0, because the code catches only `TypeError`. -/
theorem track_score_raises :
    track_score (TrackVal.strV "x") (TrackVal.intV 1) =
      .error .valueError := rfl

/-- C7 (amended): the track-number score is 100 on identical raw values,
50 on distinct values that both convert (via `int(...)`) to the same
integer, 0 on distinct values that both convert but differ, and 0 when a
conversion fails with `TypeError` (a non-string, non-int value such as
`None`); but a string value whose conversion fails with `ValueError`
raises out of scoring. -/
theorem track_score_amended (v1 v2 : TrackVal) :
    (v1 = v2 → track_score v1 v2 = .ok 100) ∧
    (v1 ≠ v2 → ∀ n1 n2 : Int, pyInt v1 = .ok n1 → pyInt v2 = .ok n2 →
      track_score v1 v2 = .ok (if n1 = n2 then 50 else 0)) ∧
    (v1 ≠ v2 → pyInt v1 = .error .typeError → track_score v1 v2 = .ok 0) ∧
    (v1 ≠ v2 → ∀ n1 : Int, pyInt v1 = .ok n1 →
      pyInt v2 = .error .typeError → track_score v1 v2 = .ok 0) ∧
    (v1 ≠ v2 → pyInt v1 = .error .valueError →
      track_score v1 v2 = .error .valueError) ∧
    (v1 ≠ v2 → ∀ n1 : Int, pyInt v1 = .ok n1 →
      pyInt v2 = .error .valueError →
      track_score v1 v2 = .error .valueError) := by
  refine ⟨fun h => by simp [track_score, h], ?_, ?_, ?_, ?_, ?_⟩
  · intro h n1 n2 h1 h2
    simp [track_score, h, h1, h2, apply_ite]
  · intro h h1
    simp [track_score, h, h1]
  · intro h n1 h1 h2
    simp [track_score, h, h1, h2]
  · intro h h1
    simp [track_score, h, h1]
  · intro h n1 h1 h2
    simp [track_score, h, h1, h2]

theorem track_score_amended_witness :
    (TrackVal.intV 6 ≠ TrackVal.strV "6") ∧
    track_score (TrackVal.intV 6) (TrackVal.strV "6") = .ok 50 := by
  refine ⟨by decide, ?_⟩
  have h := (track_score_amended (.intV 6) (.strV "6")).2.1 (by decide)
    6 6 rfl rfl
  simpa using h

/-- C2: `is_similar` holds exactly when each of the six field scores
(track, duration, album, album artist, artist, title) is strictly greater
than 90; a score of exactly 90 on any field makes the pair not similar. -/
theorem is_similar_spec (R : String → String → Nat) (a b : Song)
    (tr : Nat) (htr : track_score a.trackNumber b.trackNumber = .ok tr) :
    (is_similar R a b = .ok true ↔
      (90 < tr ∧
       90 < duration_score a.durationMillis b.durationMillis ∧
       90 < string_score R a.album b.album ∧
       90 < string_score R a.albumArtist b.albumArtist ∧
       90 < string_score R a.artist b.artist ∧
       90 < string_score R a.title b.title)) ∧
    ((tr = 90 ∨
      duration_score a.durationMillis b.durationMillis = 90 ∨
      string_score R a.album b.album = 90 ∨
      string_score R a.albumArtist b.albumArtist = 90 ∨
      string_score R a.artist b.artist = 90 ∨
      string_score R a.title b.title = 90) →
      is_similar R a b = .ok false) := by
  constructor
  · simp [is_similar, get_scores, htr, List.all, and_assoc]
  · intro h90
    simp only [is_similar, get_scores, htr]
    rcases h90 with h | h | h | h | h | h <;>
      simp [List.all, h]

theorem is_similar_spec_witness :
    track_score wsA.trackNumber wsA2.trackNumber = .ok 100 ∧
    is_similar R0 wsA wsA2 = .ok true := by
  refine ⟨rfl, ?_⟩
  exact (is_similar_spec R0 wsA wsA2 100 rfl).1.mpr (by decide)

theorem mem_insortBy {lt : Song → Song → Bool} {s t : Song}
    {l : List Song} : t ∈ insortBy lt s l ↔ t = s ∨ t ∈ l := by
  induction l with
  | nil => simp [insortBy]
  | cons x xs ih =>
    by_cases h : lt x s = true
    · simp only [insortBy, if_pos h, List.mem_cons, ih]
      try tauto
    · simp only [insortBy, if_neg h, List.mem_cons]
      try tauto

theorem mem_isortBy {lt : Song → Song → Bool} {t : Song} {l : List Song} :
    t ∈ isortBy lt l ↔ t ∈ l := by
  induction l with
  | nil => simp [isortBy]
  | cons x xs ih =>
    simp [isortBy, mem_insortBy, ih]

theorem isortBy_eq_nil {lt : Song → Song → Bool} {l : List Song} :
    isortBy lt l = [] ↔ l = [] := by
  cases l with
  | nil => simp [isortBy]
  | cons x xs =>
    simp only [isortBy]
    constructor
    · intro h
      have : x ∈ insortBy lt x (isortBy lt xs) := mem_insortBy.mpr (Or.inl rfl)
      rw [h] at this
      exact absurd this (List.not_mem_nil x)
    · intro h
      exact absurd h (List.cons_ne_nil x xs)

/-- The head of an insertion is either the inserted element or the head of
the target list when that head compares strictly before it. -/
theorem head_insortBy (lt : Song → Song → Bool) (s : Song) (l : List Song) :
    (insortBy lt s l).head? = some s ∨
    (∃ t, l.head? = some t ∧ lt t s = true ∧
      (insortBy lt s l).head? = some t) := by
  cases l with
  | nil => exact Or.inl rfl
  | cons t ts =>
    by_cases h : lt t s = true
    · exact Or.inr ⟨t, rfl, h, by simp [insortBy, h]⟩
    · exact Or.inl (by simp [insortBy, h])

/-- Stable insertion keeps the list pairwise ordered (no later element
strictly precedes an earlier one), for an asymmetric `lt` whose negation
is transitive. -/
theorem pairwise_insortBy {lt : Song → Song → Bool}
    (hasym : ∀ a b, lt a b = true → lt b a = false)
    (htr : ∀ a b c, lt a b = false → lt b c = false → lt a c = false)
    {l : List Song} (s : Song)
    (hl : List.Pairwise (fun a b => lt b a = false) l) :
    List.Pairwise (fun a b => lt b a = false) (insortBy lt s l) := by
  induction l with
  | nil => simp [insortBy]
  | cons t ts ih =>
    rcases List.pairwise_cons.mp hl with ⟨ht, hts⟩
    by_cases h : lt t s = true
    · simp only [insortBy, h, if_true]
      refine List.pairwise_cons.mpr ⟨?_, ih hts⟩
      intro u hu
      rcases mem_insortBy.mp hu with rfl | hu
      · exact hasym t u h
      · exact ht u hu
    · have h' : lt t s = false := Bool.eq_false_iff.mpr h
      simp only [insortBy, h, if_false]
      refine List.pairwise_cons.mpr ⟨?_, hl⟩
      intro u hu
      rcases List.mem_cons.mp hu with rfl | hu
      · exact h'
      · exact htr u t s (ht u hu) h'

/-- The stable insertion sort yields a pairwise ordered list. -/
theorem pairwise_isortBy {lt : Song → Song → Bool}
    (hasym : ∀ a b, lt a b = true → lt b a = false)
    (htr : ∀ a b c, lt a b = false → lt b c = false → lt a c = false)
    (l : List Song) :
    List.Pairwise (fun a b => lt b a = false) (isortBy lt l) := by
  induction l with
  | nil => simp [isortBy]
  | cons x xs ih => exact pairwise_insortBy hasym htr x ih

/-- The head of a pairwise ordered list is related to every member. -/
theorem head_pairwise {P : Song → Song → Prop} {l : List Song} {k : Song}
    (hp : List.Pairwise P l) (hk : l.head? = some k) :
    ∀ t ∈ l, t = k ∨ P k t := by
  cases l with
  | nil => simp at hk
  | cons x xs =>
    injection hk with hk
    subst hk
    rcases List.pairwise_cons.mp hp with ⟨hx, _⟩
    intro t ht
    rcases List.mem_cons.mp ht with rfl | ht
    · exact Or.inl rfl
    · exact Or.inr (hx t ht)

/-- The head of a stable insertion sort is `lt`-minimal. -/
theorem head_isortBy_minimal {lt : Song → Song → Bool}
    (hirr : ∀ a, lt a a = false)
    (hasym : ∀ a b, lt a b = true → lt b a = false)
    (htr : ∀ a b c, lt a b = false → lt b c = false → lt a c = false)
    {l : List Song} {k : Song} (hk : (isortBy lt l).head? = some k) :
    ∀ t ∈ l, lt t k = false := by
  intro t ht
  rcases head_pairwise (pairwise_isortBy hasym htr l) hk t
      (mem_isortBy.mpr ht) with rfl | h
  · exact hirr t
  · exact h

/-- Stability of the play-count sort: on a list already sorted by
ascending creation timestamp, the head of the descending play-count sort
has the least creation timestamp among members tying its play count. -/
theorem keep_tie_break {l : List Song} {k : Song}
    (hp : List.Pairwise
      (fun a b => a.creationTimestamp ≤ b.creationTimestamp) l)
    (hk : (isortBy lt_play_desc l).head? = some k) :
    ∀ t ∈ l, t.playCount = k.playCount →
      k.creationTimestamp ≤ t.creationTimestamp := by
  induction l generalizing k with
  | nil => simp [isortBy] at hk
  | cons x xs ih =>
    rcases List.pairwise_cons.mp hp with ⟨hx, hxs⟩
    simp only [isortBy] at hk
    rcases head_insortBy lt_play_desc x (isortBy lt_play_desc xs)
        with h | ⟨t0, ht0, hlt, hh⟩
    · rw [h] at hk
      injection hk with hk
      subst hk
      intro t ht _
      rcases List.mem_cons.mp ht with rfl | ht
      · exact le_refl _
      · exact hx t ht
    · rw [hh] at hk
      injection hk with hk
      subst hk
      intro t ht hplay
      rcases List.mem_cons.mp ht with rfl | ht
      · exfalso
        simp only [lt_play_desc, decide_eq_true_eq] at hlt
        omega
      · exact ih hxs ht0 t ht hplay

theorem head?_mem {l : List Song} {k : Song} (h : l.head? = some k) :
    k ∈ l :=
  List.mem_of_mem_head? (by simp [h])

theorem lt_play_desc_irrefl (a : Song) : lt_play_desc a a = false := by
  simp [lt_play_desc]

theorem lt_play_desc_asymm (a b : Song) (h : lt_play_desc a b = true) :
    lt_play_desc b a = false := by
  simp only [lt_play_desc, decide_eq_true_eq] at h
  simp only [lt_play_desc, decide_eq_false_iff_not]
  omega

theorem lt_play_desc_neg_trans (a b c : Song)
    (h1 : lt_play_desc a b = false) (h2 : lt_play_desc b c = false) :
    lt_play_desc a c = false := by
  simp only [lt_play_desc, decide_eq_false_iff_not] at h1 h2 ⊢
  omega

theorem lt_creation_asymm (a b : Song) (h : lt_creation a b = true) :
    lt_creation b a = false := by
  simp only [lt_creation, decide_eq_true_eq] at h
  simp only [lt_creation, decide_eq_false_iff_not]
  omega

theorem lt_creation_neg_trans (a b c : Song)
    (h1 : lt_creation a b = false) (h2 : lt_creation b c = false) :
    lt_creation a c = false := by
  simp only [lt_creation, decide_eq_false_iff_not] at h1 h2 ⊢
  omega

/-- The kept record is a member of its group. -/
theorem get_keep_song_mem {g : List Song} {k : Song}
    (h : get_keep_song g = some k) : k ∈ g := by
  simp only [get_keep_song] at h
  exact mem_isortBy.mp (mem_isortBy.mp (head?_mem h))

/-- The kept record maximises the play count over the group. -/
theorem get_keep_song_max {g : List Song} {k : Song}
    (h : get_keep_song g = some k) :
    ∀ t ∈ g, t.playCount ≤ k.playCount := by
  intro t ht
  simp only [get_keep_song] at h
  have := head_isortBy_minimal lt_play_desc_irrefl lt_play_desc_asymm
    lt_play_desc_neg_trans h t (mem_isortBy.mpr ht)
  simp only [lt_play_desc, decide_eq_false_iff_not] at this
  omega

/-- Among members tying the kept record's play count, the kept record has
the least creation timestamp (stability of the second sort). -/
theorem get_keep_song_tie {g : List Song} {k : Song}
    (h : get_keep_song g = some k) :
    ∀ t ∈ g, t.playCount = k.playCount →
      k.creationTimestamp ≤ t.creationTimestamp := by
  intro t ht hplay
  simp only [get_keep_song] at h
  have hpc := pairwise_isortBy lt_creation_asymm lt_creation_neg_trans g
  have hp : List.Pairwise
      (fun a b => a.creationTimestamp ≤ b.creationTimestamp)
      (isortBy lt_creation g) := by
    refine hpc.imp ?_
    intro a b hab
    simp only [lt_creation, decide_eq_false_iff_not] at hab
    omega
  exact keep_tie_break hp h t (mem_isortBy.mpr ht) hplay

/-- An empty group has no kept record (`IndexError` in the source); a
non-empty one always has exactly one. -/
theorem get_keep_song_exists (g : List Song) (hg : g ≠ []) :
    ∃ k, get_keep_song g = some k := by
  have h1 : isortBy lt_creation g ≠ [] :=
    fun h => hg (isortBy_eq_nil.mp h)
  have h2 : isortBy lt_play_desc (isortBy lt_creation g) ≠ [] :=
    fun h => h1 (isortBy_eq_nil.mp h)
  exact ⟨_, by simp only [get_keep_song]; exact List.head?_eq_head h2⟩

/-- Fixture group for the keep-song example of the spec: play counts
5, 5, 3 with creation timestamps 200, 100, 50. -/
def ws5a : Song := ⟨"x", .intV 1, "e", "e", "e", "e", 1, 5, 200, 0⟩

def ws5b : Song := ⟨"y", .intV 1, "e", "e", "e", "e", 1, 5, 100, 0⟩

def ws3 : Song := ⟨"z", .intV 1, "e", "e", "e", "e", 1, 3, 50, 0⟩

/-- C5: for every non-empty group, `get_keep_song` returns a member with
the greatest play count, breaking ties by the earliest creation
timestamp (a total function of the group, hence deterministic); for the
group with play counts [5,5,3] and creation timestamps [200,100,50] the
kept record is the one with play count 5 and creation timestamp 100. -/
theorem get_keep_song_spec (g : List Song) (hg : g ≠ []) :
    (∃ k, get_keep_song g = some k ∧ k ∈ g ∧
      (∀ t ∈ g, t.playCount ≤ k.playCount) ∧
      (∀ t ∈ g, t.playCount = k.playCount →
        k.creationTimestamp ≤ t.creationTimestamp)) ∧
    get_keep_song [ws5a, ws5b, ws3] = some ws5b := by
  obtain ⟨k, hk⟩ := get_keep_song_exists g hg
  exact ⟨⟨k, hk, get_keep_song_mem hk, get_keep_song_max hk,
    get_keep_song_tie hk⟩, by decide⟩

theorem get_keep_song_spec_witness :
    [wsA, wsB] ≠ ([] : List Song) ∧
    (∃ k, get_keep_song [wsA, wsB] = some k ∧ k ∈ [wsA, wsB] ∧
      (∀ t ∈ [wsA, wsB], t.playCount ≤ k.playCount) ∧
      (∀ t ∈ [wsA, wsB], t.playCount = k.playCount →
        k.creationTimestamp ≤ t.creationTimestamp)) :=
  ⟨by simp, (get_keep_song_spec [wsA, wsB] (by simp)).1⟩

/-- C10: `get_discard_songs` decides membership by whole-record equality
with the kept record: it keeps, in group order, exactly the members not
equal to the kept record — on a group of pairwise-distinct records that
is everything except the one kept record (one fewer than the group), and
any member whose whole record equals the kept one is excluded. -/
theorem get_discard_songs_spec (g : List Song) (keep : Song)
    (ds : List Song) (hk : get_keep_song g = some keep)
    (hd : get_discard_songs g = some ds) :
    (∀ s, s ∈ ds ↔ s ∈ g ∧ s ≠ keep) ∧
    (∀ s ∈ g, s = keep → s ∉ ds) ∧
    (g.Nodup → ds = g.erase keep ∧ ds.length + 1 = g.length) := by
  have hds : ds = g.filter (fun s => decide (s ≠ keep)) := by
    have hds0 : some ds = some (g.filter (fun s => decide (s ≠ keep))) := by
      rw [← hd]
      unfold get_discard_songs
      rw [hk]
      rfl
    exact Option.some_inj.mp hds0
  subst hds
  have hmem : ∀ s : Song,
      s ∈ g.filter (fun s => decide (s ≠ keep)) ↔ s ∈ g ∧ s ≠ keep := by
    intro s
    simp [List.mem_filter]
  refine ⟨hmem, ?_, ?_⟩
  · intro s _ hs hin
    exact ((hmem s).mp hin).2 hs
  · intro hnd
    have hkeep : keep ∈ g := get_keep_song_mem hk
    have herase : g.erase keep = g.filter (fun s => decide (s ≠ keep)) := by
      rw [hnd.erase_eq_filter keep]
      congr 1
      funext s
      rcases eq_or_ne s keep with h | h <;> simp [h]
    constructor
    · exact herase.symm
    · rw [← herase]
      have := List.length_erase_of_mem hkeep
      have hpos : 0 < g.length := List.length_pos.mpr (by
        intro h
        subst h
        simp at hkeep)
      omega

theorem get_discard_songs_spec_witness :
    get_keep_song [wsA, wsB] = some wsA ∧
    get_discard_songs [wsA, wsB] = some [wsB] ∧
    [wsB] = [wsA, wsB].erase wsA := by
  refine ⟨by decide, by decide, ?_⟩
  exact ((get_discard_songs_spec [wsA, wsB] wsA [wsB] (by decide)
    (by decide)).2.2 (by decide)).1

theorem is_similar_to_other_songs_iff (R : String → String → Nat)
    (song : Song) (ms : List Song) :
    is_similar_to_other_songs R song ms = .ok true ↔
      ∀ m ∈ ms, is_similar R song m = .ok true := by
  induction ms with
  | nil => simp [is_similar_to_other_songs]
  | cons o rest ih =>
    constructor
    · intro h
      simp only [is_similar_to_other_songs] at h
      cases ho : is_similar R song o with
      | error e => rw [ho] at h; exact absurd h (by simp)
      | ok b =>
        cases b with
        | false => rw [ho] at h; exact absurd h (by simp)
        | true =>
          rw [ho] at h
          intro m hm
          rcases List.mem_cons.mp hm with rfl | hm
          · exact ho
          · exact (ih.mp h) m hm
    · intro h
      have ho : is_similar R song o = .ok true := h o (List.mem_cons_self o rest)
      simp only [is_similar_to_other_songs, ho]
      exact ih.mpr (fun m hm => h m (List.mem_cons.mpr (Or.inr hm)))

theorem get_similar_song_id_first (R : String → String → Nat) (song : Song)
    {pre post : List (String × List Song)} {k : String} {ms : List Song}
    (hpre : ∀ e ∈ pre, is_similar_to_other_songs R song e.2 = .ok false)
    (hms : is_similar_to_other_songs R song ms = .ok true) :
    get_similar_song_id R song (pre ++ (k, ms) :: post) = .ok (some k) := by
  induction pre with
  | nil => simp [get_similar_song_id, hms]
  | cons e rest ih =>
    obtain ⟨ek, ems⟩ := e
    have he : is_similar_to_other_songs R song ems = .ok false :=
      hpre (ek, ems) (List.mem_cons_self _ _)
    simp only [List.cons_append, get_similar_song_id, he]
    exact ih (fun e he' => hpre e (List.mem_cons.mpr (Or.inr he')))

theorem get_similar_song_id_none (R : String → String → Nat) (song : Song)
    {groups : List (String × List Song)}
    (h : ∀ e ∈ groups, is_similar_to_other_songs R song e.2 = .ok false) :
    get_similar_song_id R song groups = .ok none := by
  induction groups with
  | nil => rfl
  | cons e rest ih =>
    obtain ⟨ek, ems⟩ := e
    have he : is_similar_to_other_songs R song ems = .ok false :=
      h (ek, ems) (List.mem_cons_self _ _)
    simp only [get_similar_song_id, he]
    exact ih (fun e he' => h e (List.mem_cons.mpr (Or.inr he')))

theorem assocUpdate_not_mem {key : String} {song : Song}
    {l : List (String × List Song)} (h : key ∉ l.map Prod.fst) :
    assocUpdate key song l = l ++ [(key, [song])] := by
  induction l with
  | nil => rfl
  | cons e rest ih =>
    obtain ⟨ek, ems⟩ := e
    have hne : ek ≠ key := by
      intro hk
      exact h (by simp [hk])
    simp only [assocUpdate, if_neg hne, List.cons_append, List.cons.injEq,
      true_and]
    refine ih (fun hk => h ?_)
    simp only [List.map_cons, List.mem_cons]
    exact Or.inr hk

theorem assocUpdate_hit {key : String} {song : Song} {ms : List Song}
    {pre post : List (String × List Song)}
    (h : key ∉ pre.map Prod.fst) :
    assocUpdate key song (pre ++ (key, ms) :: post) =
      pre ++ (key, ms ++ [song]) :: post := by
  induction pre with
  | nil => simp [assocUpdate]
  | cons e rest ih =>
    obtain ⟨ek, ems⟩ := e
    have hne : ek ≠ key := by
      intro hk
      exact h (by simp [hk])
    simp only [List.cons_append, assocUpdate, if_neg hne, List.cons.injEq,
      true_and]
    refine ih (fun hk => h ?_)
    simp only [List.map_cons, List.mem_cons]
    exact Or.inr hk

/-- C3: a record is appended to the first group (in group-map order) all
of whose current members it is pairwise similar to; when no group's every
member is similar to it, a new singleton group keyed by its identifier is
appended. -/
theorem add_song_spec (R : String → String → Nat) (song : Song) :
    (∀ ms : List Song,
      is_similar_to_other_songs R song ms = .ok true ↔
        ∀ m ∈ ms, is_similar R song m = .ok true) ∧
    (∀ pre post : List (String × List Song), ∀ k : String,
      ∀ ms : List Song,
      k ∉ pre.map Prod.fst →
      (∀ e ∈ pre, is_similar_to_other_songs R song e.2 = .ok false) →
      is_similar_to_other_songs R song ms = .ok true →
      add_song_to_correct_group R song (pre ++ (k, ms) :: post) =
        .ok (pre ++ (k, ms ++ [song]) :: post)) ∧
    (∀ groups : List (String × List Song),
      song.id ∉ groups.map Prod.fst →
      (∀ e ∈ groups, is_similar_to_other_songs R song e.2 = .ok false) →
      add_song_to_correct_group R song groups =
        .ok (groups ++ [(song.id, [song])])) := by
  refine ⟨is_similar_to_other_songs_iff R song, ?_, ?_⟩
  · intro pre post k ms hk hpre hms
    simp only [add_song_to_correct_group,
      get_similar_song_id_first R song hpre hms, Option.getD_some]
    rw [assocUpdate_hit hk]
  · intro groups hid h
    simp only [add_song_to_correct_group, get_similar_song_id_none R song h,
      Option.getD_none]
    rw [assocUpdate_not_mem hid]

theorem add_song_spec_witness :
    ("m" ∉ ([("b", [wsB])].map Prod.fst)) ∧
    add_song_to_correct_group R0 wsA [("b", [wsB]), ("m", [wsA2])] =
      .ok [("b", [wsB]), ("m", [wsA2, wsA])] := by
  refine ⟨by decide, ?_⟩
  have h := (add_song_spec R0 wsA).2.1 [("b", [wsB])] [] "m" [wsA2]
    (by decide) ?_ ?_
  · simpa using h
  · intro e he
    have : e = ("b", [wsB]) := by simpa using he
    subst this
    rfl
  · rfl

theorem foldE_append {f : β → α → Except PyErr β} {init : β}
    {xs ys : List α} :
    foldE f init (xs ++ ys) =
      match foldE f init xs with
      | .error e => .error e
      | .ok b => foldE f b ys := by
  induction xs generalizing init with
  | nil => rfl
  | cons x xs ih =>
    simp only [List.cons_append, foldE]
    cases h : f init x with
    | error e => rfl
    | ok b => exact ih

/-- All records stored in a group map, in order. -/
def songs_in (groups : List (String × List Song)) : List Song :=
  (groups.map Prod.snd).flatten

theorem songs_in_assocUpdate {k : String} {s t : Song}
    {gs : List (String × List Song)} :
    t ∈ songs_in (assocUpdate k s gs) ↔ t ∈ songs_in gs ∨ t = s := by
  induction gs with
  | nil => simp [songs_in, assocUpdate]
  | cons e rest ih =>
    obtain ⟨ek, ems⟩ := e
    by_cases h : ek = k
    · have hr : assocUpdate k s ((ek, ems) :: rest) =
          (ek, ems ++ [s]) :: rest := by
        simp [assocUpdate, h]
      rw [hr]
      simp only [songs_in, List.map_cons, List.flatten_cons,
        List.mem_append, List.mem_singleton]
      tauto
    · have hr : assocUpdate k s ((ek, ems) :: rest) =
          (ek, ems) :: assocUpdate k s rest := by
        simp [assocUpdate, h]
      rw [hr]
      simp only [songs_in, List.map_cons, List.flatten_cons,
        List.mem_append]
      simp only [songs_in] at ih
      tauto

theorem add_song_mem {R : String → String → Nat} {s : Song}
    {gs gs' : List (String × List Song)}
    (h : add_song_to_correct_group R s gs = .ok gs') :
    ∀ t, t ∈ songs_in gs' ↔ t ∈ songs_in gs ∨ t = s := by
  intro t
  simp only [add_song_to_correct_group] at h
  cases hs : get_similar_song_id R s gs with
  | error e => rw [hs] at h; exact absurd h (by simp)
  | ok simId =>
    rw [hs] at h
    injection h with h
    subst h
    exact songs_in_assocUpdate

theorem foldE_add_mem {R : String → String → Nat}
    {l : List Song} {gs gr : List (String × List Song)}
    (h : foldE (fun gs s => add_song_to_correct_group R s gs) gs l = .ok gr) :
    ∀ t, t ∈ songs_in gr ↔ t ∈ songs_in gs ∨ t ∈ l := by
  induction l generalizing gs with
  | nil =>
    simp only [foldE] at h
    injection h with h
    subst h
    simp
  | cons s rest ih =>
    simp only [foldE] at h
    cases ha : add_song_to_correct_group R s gs with
    | error e => rw [ha] at h; exact absurd h (by simp)
    | ok g1 =>
      rw [ha] at h
      intro t
      rw [ih h t, add_song_mem ha t, List.mem_cons]
      tauto

/-- The invariant of the working group map: every entry is non-empty, its
key is its first member's identifier, and keys are unique. -/
def GroupsWF (gs : List (String × List Song)) : Prop :=
  (∀ e ∈ gs, e.2.head?.map Song.id = some e.1) ∧ (gs.map Prod.fst).Nodup

theorem get_similar_song_id_some_mem {R : String → String → Nat} {s : Song}
    {gs : List (String × List Song)} {sid : String}
    (h : get_similar_song_id R s gs = .ok (some sid)) :
    sid ∈ gs.map Prod.fst := by
  induction gs with
  | nil => exact absurd h (by simp [get_similar_song_id])
  | cons e rest ih =>
    obtain ⟨ek, ems⟩ := e
    simp only [get_similar_song_id] at h
    cases hm : is_similar_to_other_songs R s ems with
    | error e => rw [hm] at h; exact absurd h (by simp)
    | ok b =>
      rw [hm] at h
      cases b with
      | true =>
        injection h with h
        injection h with h
        simp [h]
      | false =>
        simp only [List.map_cons, List.mem_cons]
        exact Or.inr (ih h)

theorem assocUpdate_keys_of_mem {k : String} {s : Song}
    {gs : List (String × List Song)} (hk : k ∈ gs.map Prod.fst) :
    (assocUpdate k s gs).map Prod.fst = gs.map Prod.fst := by
  induction gs with
  | nil => simp at hk
  | cons e rest ih =>
    obtain ⟨ek, ems⟩ := e
    by_cases h : ek = k
    · simp [assocUpdate, h]
    · have hr : assocUpdate k s ((ek, ems) :: rest) =
          (ek, ems) :: assocUpdate k s rest := by
        simp [assocUpdate, h]
      rw [hr]
      simp only [List.map_cons, List.cons.injEq, true_and]
      refine ih ?_
      simp only [List.map_cons, List.mem_cons] at hk
      rcases hk with hk0 | hk0
      · exact absurd hk0.symm h
      · exact hk0

theorem assocUpdate_WF_mem {k : String} {s : Song}
    {gs : List (String × List Song)} (hwf : GroupsWF gs)
    (hk : k ∈ gs.map Prod.fst) : GroupsWF (assocUpdate k s gs) := by
  induction gs with
  | nil => simp at hk
  | cons e rest ih =>
    obtain ⟨ek, ems⟩ := e
    obtain ⟨hheads, hnd⟩ := hwf
    have hek : ems.head?.map Song.id = some ek :=
      hheads (ek, ems) (List.mem_cons_self _ _)
    simp only [List.map_cons, List.nodup_cons] at hnd
    by_cases h : ek = k
    · have hr : assocUpdate k s ((ek, ems) :: rest) =
          (ek, ems ++ [s]) :: rest := by
        simp [assocUpdate, h]
      rw [hr]
      have hne : ems ≠ [] := by
        intro he
        rw [he] at hek
        simp at hek
      refine ⟨?_, by simpa using hnd⟩
      intro e he
      rcases List.mem_cons.mp he with rfl | he
      · have hh : (ems ++ [s]).head? = ems.head? := by
          cases ems with
          | nil => exact absurd rfl hne
          | cons a as => rfl
        simpa [hh] using hek
      · exact hheads e (List.mem_cons.mpr (Or.inr he))
    · have hr : assocUpdate k s ((ek, ems) :: rest) =
          (ek, ems) :: assocUpdate k s rest := by
        simp [assocUpdate, h]
      rw [hr]
      have hk' : k ∈ rest.map Prod.fst := by
        simp only [List.map_cons, List.mem_cons] at hk
        rcases hk with hk0 | hk0
        · exact absurd hk0.symm h
        · exact hk0
      have hwf' : GroupsWF rest :=
        ⟨fun e he => hheads e (List.mem_cons.mpr (Or.inr he)), hnd.2⟩
      obtain ⟨hh', hnd'⟩ := ih hwf' hk'
      refine ⟨?_, ?_⟩
      · intro e he
        rcases List.mem_cons.mp he with rfl | he
        · exact hek
        · exact hh' e he
      · simp only [List.map_cons, List.nodup_cons,
          assocUpdate_keys_of_mem hk']
        exact ⟨hnd.1, hnd.2⟩

theorem add_song_WF {R : String → String → Nat} {s : Song}
    {gs gs' : List (String × List Song)} (hwf : GroupsWF gs)
    (h : add_song_to_correct_group R s gs = .ok gs') : GroupsWF gs' := by
  simp only [add_song_to_correct_group] at h
  cases hs : get_similar_song_id R s gs with
  | error e => rw [hs] at h; exact absurd h (by simp)
  | ok simId =>
    rw [hs] at h
    injection h with h
    subst h
    cases simId with
    | some sid =>
      exact assocUpdate_WF_mem hwf (get_similar_song_id_some_mem hs)
    | none =>
      by_cases hm : s.id ∈ gs.map Prod.fst
      · exact assocUpdate_WF_mem hwf hm
      · rw [Option.getD_none, assocUpdate_not_mem hm]
        obtain ⟨hheads, hnd⟩ := hwf
        constructor
        · intro e he
          rcases List.mem_append.mp he with he | he
          · exact hheads e he
          · have : e = (s.id, [s]) := by simpa using he
            subst this
            rfl
        · rw [List.map_append]
          refine List.nodup_append.mpr ⟨hnd, by simp, ?_⟩
          intro a ha hb
          have : a = s.id := by simpa using hb
          subst this
          exact hm ha

theorem foldE_add_WF {R : String → String → Nat} {l : List Song}
    {gs gr : List (String × List Song)} (hwf : GroupsWF gs)
    (h : foldE (fun gs s => add_song_to_correct_group R s gs) gs l =
      .ok gr) : GroupsWF gr := by
  induction l generalizing gs with
  | nil =>
    simp only [foldE] at h
    injection h with h
    subst h
    exact hwf
  | cons s rest ih =>
    simp only [foldE] at h
    cases ha : add_song_to_correct_group R s gs with
    | error e => rw [ha] at h; exact absurd h (by simp)
    | ok g1 =>
      rw [ha] at h
      exact ih (add_song_WF hwf ha) h

theorem dictInsert_not_mem {k : String} {v : List Song}
    {acc : List (String × List Song)} (h : k ∉ acc.map Prod.fst) :
    dictInsert k v acc = acc ++ [(k, v)] := by
  induction acc with
  | nil => rfl
  | cons e rest ih =>
    obtain ⟨ek, ems⟩ := e
    have hne : ek ≠ k := by
      intro hk
      exact h (by simp [hk])
    simp only [dictInsert, if_neg hne, List.cons_append, List.cons.injEq,
      true_and]
    refine ih (fun hk => h ?_)
    simp only [List.map_cons, List.mem_cons]
    exact Or.inr hk

theorem groups_from_checkpoint_aux_round
    {gs : List (String × List Song)}
    (hheads : ∀ e ∈ gs, e.2.head?.map Song.id = some e.1) :
    ∀ acc : List (String × List Song),
    (acc.map Prod.fst ++ gs.map Prod.fst).Nodup →
    groups_from_checkpoint_aux acc (gs.map Prod.snd) = .ok (acc ++ gs) := by
  induction gs with
  | nil =>
    intro acc _
    simp [groups_from_checkpoint_aux]
  | cons e rest ih =>
    intro acc hnd
    obtain ⟨ek, ems⟩ := e
    have hek : ems.head?.map Song.id = some ek :=
      hheads (ek, ems) (List.mem_cons_self _ _)
    cases ems with
    | nil => simp at hek
    | cons h t =>
      have hid : h.id = ek := by simpa using hek
      simp only [List.map_cons, groups_from_checkpoint_aux]
      have hknotacc : ek ∉ acc.map Prod.fst := by
        intro hmem
        simp only [List.map_cons] at hnd
        have hdisj := (List.nodup_append.mp hnd).2.2
        exact absurd (List.mem_cons_self ek (rest.map Prod.fst))
          (fun hc => hdisj hmem hc)
      rw [hid, dictInsert_not_mem hknotacc]
      have hnd' : ((acc ++ [(ek, h :: t)]).map Prod.fst ++
          rest.map Prod.fst).Nodup := by
        simp only [List.map_append, List.map_cons, List.map_nil]
        rw [List.append_assoc, List.singleton_append]
        simp only [List.map_cons] at hnd
        exact hnd
      have := ih (fun e he => hheads e (List.mem_cons.mpr (Or.inr he)))
        (acc ++ [(ek, h :: t)]) hnd'
      rw [this, List.append_assoc]
      rfl

/-- Reloading a stored checkpoint reproduces the group map it came from,
provided the map satisfies the working invariant. -/
theorem groups_from_checkpoint_round {gs : List (String × List Song)}
    (hwf : GroupsWF gs) :
    groups_from_checkpoint (checkpoint_of gs) = .ok gs := by
  have := groups_from_checkpoint_aux_round hwf.1 [] (by simpa using hwf.2)
  simpa [groups_from_checkpoint, checkpoint_of] using this

/-- With no checkpoint, `build_groups` is the plain fold over the input. -/
theorem build_groups_nil (R : String → String → Nat) (songs : List Song) :
    build_groups R [] songs =
      foldE (fun gs s => add_song_to_correct_group R s gs) [] songs := by
  have h0 : groups_from_checkpoint [] =
      .ok ([] : List (String × List Song)) := rfl
  simp only [build_groups, h0]
  congr 1
  refine List.filter_eq_self.mpr ?_
  intro s _
  simp [seen_ids, songs_in]

/-- C4: for inputs with pairwise-distinct identifiers, resuming from a
checkpoint written after a first sub-run reproduces the uninterrupted
run's groups exactly: the checkpoint reloads to the same group map, the
records of the first sub-run are filtered out (only the remainder is
processed), no record whose identifier is in the checkpoint is ever
processed, and the resumed run returns the same result as one
uninterrupted run over the whole sequence. -/
theorem build_groups_resume (R : String → String → Nat) (xs ys : List Song)
    (g1 : List (String × List Song))
    (hnd : ((xs ++ ys).map Song.id).Nodup)
    (h1 : build_groups R [] xs = .ok g1) :
    groups_from_checkpoint (checkpoint_of g1) = .ok g1 ∧
    songs_to_process g1 (xs ++ ys) = ys ∧
    (∀ groups0 : List (String × List Song), ∀ songs : List Song,
      ∀ s ∈ songs_to_process groups0 songs, s.id ∉ seen_ids groups0) ∧
    build_groups R (checkpoint_of g1) (xs ++ ys) =
      build_groups R [] (xs ++ ys) := by
  have hfold : foldE (fun gs s => add_song_to_correct_group R s gs) [] xs =
      .ok g1 := by
    rw [← build_groups_nil]
    exact h1
  have hwf0 : GroupsWF ([] : List (String × List Song)) :=
    ⟨by simp, by simp⟩
  have hwf : GroupsWF g1 := foldE_add_WF hwf0 hfold
  have hround := groups_from_checkpoint_round hwf
  have hmem : ∀ t : Song, t ∈ songs_in g1 ↔ t ∈ xs := by
    intro t
    have h := foldE_add_mem hfold t
    simpa [songs_in] using h
  have hseen : ∀ i : String, i ∈ seen_ids g1 ↔ ∃ u ∈ xs, u.id = i := by
    intro i
    simp only [seen_ids, List.mem_map]
    constructor
    · rintro ⟨u, hu, rfl⟩
      exact ⟨u, (hmem u).mp hu, rfl⟩
    · rintro ⟨u, hu, rfl⟩
      exact ⟨u, (hmem u).mpr hu, rfl⟩
  have hstp : songs_to_process g1 (xs ++ ys) = ys := by
    simp only [songs_to_process, List.filter_append]
    have hx : List.filter (fun s => decide (s.id ∉ seen_ids g1)) xs = [] := by
      refine List.filter_eq_nil_iff.mpr ?_
      intro s hs
      simp only [decide_eq_true_eq, not_not]
      exact (hseen s.id).mpr ⟨s, hs, rfl⟩
    have hy : List.filter (fun s => decide (s.id ∉ seen_ids g1)) ys = ys := by
      refine List.filter_eq_self.mpr ?_
      intro s hs
      simp only [decide_eq_true_eq]
      intro hin
      obtain ⟨u, hu, huid⟩ := (hseen s.id).mp hin
      rw [List.map_append] at hnd
      have hdisj := (List.nodup_append.mp hnd).2.2
      exact hdisj (List.mem_map.mpr ⟨u, hu, huid⟩)
        (List.mem_map.mpr ⟨s, hs, rfl⟩)
    rw [hx, hy, List.nil_append]
  refine ⟨hround, hstp, ?_, ?_⟩
  · intro groups0 songs s hs
    simp only [songs_to_process] at hs
    have h := List.of_mem_filter hs
    simpa using h
  · have hL : build_groups R (checkpoint_of g1) (xs ++ ys) =
        foldE (fun gs s => add_song_to_correct_group R s gs) g1 ys := by
      simp only [build_groups, hround, hstp]
    have hR : build_groups R [] (xs ++ ys) =
        foldE (fun gs s => add_song_to_correct_group R s gs) g1 ys := by
      rw [build_groups_nil, foldE_append, hfold]
    rw [hL, hR]

theorem build_groups_resume_witness :
    (([wsA] ++ [wsB]).map Song.id).Nodup ∧
    build_groups R0 [] [wsA] = .ok [("a", [wsA])] ∧
    build_groups R0 (checkpoint_of [("a", [wsA])]) ([wsA] ++ [wsB]) =
      build_groups R0 [] ([wsA] ++ [wsB]) := by
  refine ⟨by decide, rfl, ?_⟩
  exact (build_groups_resume R0 [wsA] [wsB] [("a", [wsA])] (by decide)
    rfl).2.2.2

theorem run_loop_interrupt (R : String → String → Nat) :
    ∀ (i : Nat) (l : List Song) (groups : List (String × List Song))
      (writes : List (List (List Song))) (index : Nat)
      (gi : List (String × List Song)),
    i < l.length →
    foldE (fun gs s => add_song_to_correct_group R s gs) groups (l.take i) =
      .ok gi →
    ∃ ws, run_loop R (some (index + i)) index l groups writes =
        (ws, .error .interrupt) ∧
      ws.getLast? = some (checkpoint_of gi) := by
  intro i
  induction i with
  | zero =>
    intro l groups writes index gi hlen hfold
    cases l with
    | nil => simp at hlen
    | cons s rest =>
      simp only [List.take_zero, foldE] at hfold
      injection hfold with hfold
      subst hfold
      refine ⟨writes ++ [checkpoint_of groups], ?_, ?_⟩
      · simp [run_loop]
      · exact List.getLast?_concat _
  | succ i ih =>
    intro l groups writes index gi hlen hfold
    cases l with
    | nil => simp at hlen
    | cons s rest =>
      simp only [List.take_succ_cons, foldE] at hfold
      cases ha : add_song_to_correct_group R s groups with
      | error e => rw [ha] at hfold; exact absurd hfold (by simp)
      | ok g1 =>
        rw [ha] at hfold
        have hlen' : i < rest.length := by
          simpa using hlen
        have hne : some (index + (i + 1)) ≠ some index := by
          intro hc
          injection hc with hc
          omega
        obtain ⟨ws, hrun, hlast⟩ := ih rest g1
          (if index % 100 = 0 then writes ++ [checkpoint_of groups]
           else writes) (index + 1) gi hlen' hfold
        refine ⟨ws, ?_, hlast⟩
        simp only [run_loop, if_neg hne, ha]
        have harith : index + 1 + i = index + (i + 1) := by omega
        rw [← harith]
        exact hrun

/-- C9: an operator interrupt arriving at any iteration of the clustering
loop makes the run write a final checkpoint containing exactly the groups
built so far (the initial groups plus every record processed before the
interrupt) and then propagate the interruption; no already-grouped record
is lost. -/
theorem build_groups_run_interrupt (R : String → String → Nat)
    (chk : List (List Song)) (songs : List Song) (i : Nat)
    (groups0 gi : List (String × List Song))
    (h0 : groups_from_checkpoint chk = .ok groups0)
    (hlen : i < (songs_to_process groups0 songs).length)
    (hfold : foldE (fun gs s => add_song_to_correct_group R s gs) groups0
      ((songs_to_process groups0 songs).take i) = .ok gi) :
    ∃ ws, build_groups_run R (some i) chk songs =
        (ws, .error .interrupt) ∧
      ws ≠ [] ∧ ws.getLast? = some (checkpoint_of gi) := by
  obtain ⟨ws, hrun, hlast⟩ := run_loop_interrupt R i
    (songs_to_process groups0 songs) groups0 [] 0 gi hlen hfold
  refine ⟨ws, ?_, ?_, hlast⟩
  · simp only [build_groups_run, h0]
    simpa using hrun
  · intro hc
    rw [hc] at hlast
    simp at hlast

theorem build_groups_run_interrupt_witness :
    groups_from_checkpoint [] = .ok [] ∧
    (∃ ws, build_groups_run R0 (some 1) [] [wsA, wsB] =
        (ws, .error .interrupt) ∧
      ws ≠ [] ∧ ws.getLast? = some (checkpoint_of [("a", [wsA])])) := by
  refine ⟨rfl, ?_⟩
  exact build_groups_run_interrupt R0 [] [wsA, wsB] 1 [] [("a", [wsA])]
    rfl (by decide) rfl

theorem track_score_values {v1 v2 : TrackVal} {t : Nat}
    (h : track_score v1 v2 = .ok t) : t = 0 ∨ t = 50 ∨ t = 100 := by
  unfold track_score at h
  by_cases hv : v1 = v2
  · rw [if_pos hv] at h
    injection h with h
    omega
  · rw [if_neg hv] at h
    cases hp1 : pyInt v1 with
    | error e =>
      rw [hp1] at h
      cases e <;> simp at h <;> omega
    | ok n1 =>
      rw [hp1] at h
      cases hp2 : pyInt v2 with
      | error e =>
        rw [hp2] at h
        cases e <;> simp at h <;> omega
      | ok n2 =>
        rw [hp2] at h
        by_cases he : n1 = n2 <;> simp [he] at h <;> omega

theorem duration_score_le (d1 d2 : Nat) : duration_score d1 d2 ≤ 100 := by
  unfold duration_score
  by_cases h : d1 = d2
  · simp [h]
  · rw [if_neg h]
    have hq : min d1 d2 / max d1 d2 ≤ 1 := by
      rcases Nat.eq_zero_or_pos (max d1 d2) with h0 | h0
      · simp [h0]
      · calc min d1 d2 / max d1 d2 ≤ max d1 d2 / max d1 d2 :=
              Nat.div_le_div_right (min_le_max)
          _ = 1 := Nat.div_self h0
    omega

theorem string_score_le {R : String → String → Nat}
    (hR : ∀ a b, R a b ≤ 100) (a b : String) :
    string_score R a b ≤ 100 := by
  unfold string_score
  by_cases h : a = b
  · simp [h]
  · rw [if_neg h]
    exact hR a b

theorem get_scores_ok {R : String → String → Nat} {a b : Song}
    {sc : List Nat} (h : get_scores R a b = .ok sc) :
    ∃ tr, track_score a.trackNumber b.trackNumber = .ok tr ∧
      sc = [tr,
            duration_score a.durationMillis b.durationMillis,
            string_score R a.album b.album,
            string_score R a.albumArtist b.albumArtist,
            string_score R a.artist b.artist,
            string_score R a.title b.title] := by
  unfold get_scores at h
  cases ht : track_score a.trackNumber b.trackNumber with
  | error e => rw [ht] at h; exact absurd h (by simp)
  | ok tr =>
    rw [ht] at h
    injection h with h
    exact ⟨tr, rfl, h.symm⟩

theorem get_scores_le {R : String → String → Nat} {a b : Song}
    {sc : List Nat} (hR : ∀ a b, R a b ≤ 100)
    (h : get_scores R a b = .ok sc) :
    sc.length = 6 ∧ ∀ x ∈ sc, x ≤ 100 := by
  obtain ⟨tr, htr, rfl⟩ := get_scores_ok h
  refine ⟨rfl, ?_⟩
  intro x hx
  have htr100 : tr ≤ 100 := by
    rcases track_score_values htr with h | h | h <;> omega
  simp only [List.mem_cons, List.not_mem_nil, or_false] at hx
  rcases hx with rfl | rfl | rfl | rfl | rfl | rfl
  · exact htr100
  · exact duration_score_le _ _
  · exact string_score_le hR _ _
  · exact string_score_le hR _ _
  · exact string_score_le hR _ _
  · exact string_score_le hR _ _

theorem qsum_le {l : List ℚ} {c : ℚ} (h : ∀ x ∈ l, x ≤ c) :
    l.sum ≤ (l.length : ℚ) * c := by
  induction l with
  | nil => simp
  | cons y ys ih =>
    have hy : y ≤ c := h y (List.mem_cons_self _ _)
    have hys : ys.sum ≤ (ys.length : ℚ) * c :=
      ih (fun x hx => h x (List.mem_cons.mpr (Or.inr hx)))
    simp only [List.sum_cons, List.length_cons]
    push_cast
    nlinarith

theorem qsum_lt {l : List ℚ} {c x0 : ℚ} (h : ∀ x ∈ l, x ≤ c)
    (hx : x0 ∈ l) (hlt : x0 < c) : l.sum < (l.length : ℚ) * c := by
  induction l with
  | nil => simp at hx
  | cons y ys ih =>
    simp only [List.sum_cons, List.length_cons]
    push_cast
    rcases List.mem_cons.mp hx with rfl | hx0
    · have hys : ys.sum ≤ (ys.length : ℚ) * c :=
        qsum_le (fun x hx => h x (List.mem_cons.mpr (Or.inr hx)))
      nlinarith
    · have hy : y ≤ c := h y (List.mem_cons_self _ _)
      have hys : ys.sum < (ys.length : ℚ) * c :=
        ih (fun x hx => h x (List.mem_cons.mpr (Or.inr hx))) hx0
      nlinarith

theorem final_score_le {R : String → String → Nat} {a b : Song} {q : ℚ}
    (hR : ∀ a b, R a b ≤ 100) (h : final_score R a b = .ok q) :
    q ≤ 100 := by
  unfold final_score at h
  cases hsc : get_scores R a b with
  | error e => rw [hsc] at h; exact absurd h (by simp)
  | ok sc =>
    rw [hsc] at h
    injection h with h
    subst h
    obtain ⟨hlen, hle⟩ := get_scores_le hR hsc
    have hcast : ∀ x ∈ sc.map (fun n : Nat => (n : ℚ)), x ≤ 100 := by
      intro x hx
      obtain ⟨n, hn, rfl⟩ := List.mem_map.mp hx
      exact_mod_cast hle n hn
    have hsum : ((sc.sum : ℚ)) ≤ ((sc.length : ℚ)) * 100 := by
      have := qsum_le hcast
      simpa [Nat.cast_list_sum] using this
    rw [hlen] at hsum ⊢
    push_cast at hsum ⊢
    rw [div_le_iff₀ (by norm_num : (0:ℚ) < 6)]
    linarith

theorem final_score_lt {R : String → String → Nat} {a b : Song} {q : ℚ}
    {sc : List Nat} {x : Nat} (hR : ∀ a b, R a b ≤ 100)
    (h : final_score R a b = .ok q) (hsc : get_scores R a b = .ok sc)
    (hx : x ∈ sc) (hlt : x < 100) : q < 100 := by
  unfold final_score at h
  rw [hsc] at h
  injection h with h
  subst h
  obtain ⟨hlen, hle⟩ := get_scores_le hR hsc
  have hcast : ∀ y ∈ sc.map (fun n : Nat => (n : ℚ)), y ≤ 100 := by
    intro y hy
    obtain ⟨n, hn, rfl⟩ := List.mem_map.mp hy
    exact_mod_cast hle n hn
  have hxin : ((x : ℚ)) ∈ sc.map (fun n : Nat => (n : ℚ)) :=
    List.mem_map.mpr ⟨x, hx, rfl⟩
  have hxlt : ((x : ℚ)) < 100 := by exact_mod_cast hlt
  have hsum : ((sc.sum : ℚ)) < ((sc.length : ℚ)) * 100 := by
    have := qsum_lt hcast hxin hxlt
    simpa [Nat.cast_list_sum] using this
  rw [hlen] at hsum ⊢
  push_cast at hsum ⊢
  rw [div_lt_iff₀ (by norm_num : (0:ℚ) < 6)]
  linarith

theorem mapE_length {f : α → Except PyErr β} {l : List α} {r : List β}
    (h : mapE f l = .ok r) : r.length = l.length := by
  induction l generalizing r with
  | nil =>
    simp only [mapE] at h
    injection h with h
    subst h
    rfl
  | cons x xs ih =>
    simp only [mapE] at h
    cases hx : f x with
    | error e => rw [hx] at h; exact absurd h (by simp)
    | ok y =>
      rw [hx] at h
      cases hxs : mapE f xs with
      | error e => rw [hxs] at h; exact absurd h (by simp)
      | ok ys =>
        rw [hxs] at h
        injection h with h
        subst h
        simp [ih hxs]

theorem mapE_ok_mem {f : α → Except PyErr β} {l : List α} {r : List β}
    (h : mapE f l = .ok r) : ∀ y ∈ r, ∃ x ∈ l, f x = .ok y := by
  induction l generalizing r with
  | nil =>
    simp only [mapE] at h
    injection h with h
    subst h
    simp
  | cons x xs ih =>
    simp only [mapE] at h
    cases hx : f x with
    | error e => rw [hx] at h; exact absurd h (by simp)
    | ok y =>
      rw [hx] at h
      cases hxs : mapE f xs with
      | error e => rw [hxs] at h; exact absurd h (by simp)
      | ok ys =>
        rw [hxs] at h
        injection h with h
        subst h
        intro z hz
        rcases List.mem_cons.mp hz with rfl | hz
        · exact ⟨x, List.mem_cons_self _ _, hx⟩
        · obtain ⟨x0, hx0, hfx0⟩ := ih hxs z hz
          exact ⟨x0, List.mem_cons.mpr (Or.inr hx0), hfx0⟩

theorem mapE_ok_forall {f : α → Except PyErr β} {l : List α} {r : List β}
    (h : mapE f l = .ok r) : ∀ x ∈ l, ∃ y ∈ r, f x = .ok y := by
  induction l generalizing r with
  | nil => simp
  | cons x xs ih =>
    simp only [mapE] at h
    cases hx : f x with
    | error e => rw [hx] at h; exact absurd h (by simp)
    | ok y =>
      rw [hx] at h
      cases hxs : mapE f xs with
      | error e => rw [hxs] at h; exact absurd h (by simp)
      | ok ys =>
        rw [hxs] at h
        injection h with h
        subst h
        intro z hz
        rcases List.mem_cons.mp hz with rfl | hz
        · exact ⟨y, List.mem_cons_self _ _, hx⟩
        · obtain ⟨y0, hy0, hfy0⟩ := ih hxs z hz
          exact ⟨y0, List.mem_cons.mpr (Or.inr hy0), hfy0⟩

theorem get_similarity_ok_shape {R : String → String → Nat}
    {g : List Song} {s : ℚ} (h : get_similarity R g = .ok s) :
    ∃ finals, mapE (fun p => final_score R p.1 p.2) (get_all_pairs g) =
        .ok finals ∧
      (get_all_pairs g).length ≠ 0 ∧
      s = finals.sum / ((get_all_pairs g).length : ℚ) := by
  unfold get_similarity at h
  cases hm : mapE (fun p => final_score R p.1 p.2) (get_all_pairs g) with
  | error e => rw [hm] at h; exact absurd h (by simp)
  | ok finals =>
    rw [hm] at h
    dsimp only [] at h
    by_cases h0 : (get_all_pairs g).length = 0
    · rw [if_pos h0] at h
      exact absurd h (by simp)
    · rw [if_neg h0] at h
      injection h with h
      exact ⟨finals, rfl, h0, h.symm⟩

theorem get_similarity_le {R : String → String → Nat} {g : List Song}
    {s : ℚ} (hR : ∀ a b, R a b ≤ 100) (h : get_similarity R g = .ok s) :
    s ≤ 100 := by
  obtain ⟨finals, hm, h0, rfl⟩ := get_similarity_ok_shape h
  have hle : ∀ x ∈ finals, x ≤ 100 := by
    intro x hx
    obtain ⟨p, _, hp⟩ := mapE_ok_mem hm x hx
    exact final_score_le hR hp
  have hsum := qsum_le hle
  rw [mapE_length hm] at hsum
  have hpos : (0:ℚ) < ((get_all_pairs g).length : ℚ) := by
    exact_mod_cast Nat.pos_of_ne_zero h0
  rw [div_le_iff₀ hpos]
  linarith

theorem get_similarity_lt {R : String → String → Nat} {g : List Song}
    {s : ℚ} {p : Song × Song} {sc : List Nat} {x : Nat}
    (hR : ∀ a b, R a b ≤ 100) (h : get_similarity R g = .ok s)
    (hp : p ∈ get_all_pairs g) (hsc : get_scores R p.1 p.2 = .ok sc)
    (hx : x ∈ sc) (hlt : x < 100) : s < 100 := by
  obtain ⟨finals, hm, h0, rfl⟩ := get_similarity_ok_shape h
  have hle : ∀ y ∈ finals, y ≤ 100 := by
    intro y hy
    obtain ⟨p0, _, hp0⟩ := mapE_ok_mem hm y hy
    exact final_score_le hR hp0
  obtain ⟨q, hq, hfq⟩ := mapE_ok_forall hm p hp
  have hqlt : q < 100 := final_score_lt hR hfq hsc hx hlt
  have hsum := qsum_lt hle hq hqlt
  rw [mapE_length hm] at hsum
  have hpos : (0:ℚ) < ((get_all_pairs g).length : ℚ) := by
    exact_mod_cast Nat.pos_of_ne_zero h0
  rw [div_lt_iff₀ hpos]
  linarith

/-- C1: a multi-member group is auto-resolved (deleted with no prompt)
exactly when its group similarity equals 100, and a group containing any
pair with any field score below 100 is never auto-resolved — it is routed
to interactive confirmation by `delete_duplicates`. -/
theorem auto_manage_spec (R : String → String → Nat)
    (hR : ∀ a b, R a b ≤ 100) (g : List Song) (_hlen : 2 ≤ g.length)
    (s : ℚ) (hs : get_similarity R g = .ok s) :
    (auto_manage R g = .ok true ↔ s = 100) ∧
    (auto_manage R g = .ok true → resolve_action R g = .ok .autoResolve) ∧
    (auto_manage R g = .ok false → resolve_action R g = .ok .interactive) ∧
    (∀ p ∈ get_all_pairs g, ∀ sc, get_scores R p.1 p.2 = .ok sc →
      (∃ x ∈ sc, x < 100) →
      auto_manage R g = .ok false ∧
      resolve_action R g = .ok .interactive) := by
  have hle : s ≤ 100 := get_similarity_le hR hs
  have hauto : auto_manage R g =
      (if s < 100 then .ok false else .ok true) := by
    simp [auto_manage, hs]
  refine ⟨?_, ?_, ?_, ?_⟩
  · rw [hauto]
    constructor
    · intro h
      by_cases hlt : s < 100
      · rw [if_pos hlt] at h
        exact absurd h (by simp)
      · push_neg at hlt
        linarith
    · intro h
      subst h
      simp
  · intro h
    simp [resolve_action, h]
  · intro h
    simp [resolve_action, h]
  · intro p hp sc hsc hx
    obtain ⟨x, hxm, hxlt⟩ := hx
    have hlt : s < 100 := get_similarity_lt hR hs hp hsc hxm hxlt
    have hfalse : auto_manage R g = .ok false := by
      rw [hauto, if_pos hlt]
    exact ⟨hfalse, by simp [resolve_action, hfalse]⟩

theorem auto_manage_spec_witness :
    (∀ a b, R0 a b ≤ 100) ∧ 2 ≤ [wsA, wsA2].length ∧
    get_similarity R0 [wsA, wsA2] = .ok 100 ∧
    auto_manage R0 [wsA, wsA2] = .ok true := by
  have hsc : get_scores R0 wsA wsA2 =
      .ok [100, 100, 100, 100, 100, 100] := rfl
  have hfs : final_score R0 wsA wsA2 = .ok 100 := by
    rw [final_score, hsc]
    norm_num
  have hpairs : get_all_pairs [wsA, wsA2] = [(wsA, wsA2)] := rfl
  have hm : mapE (fun p => final_score R0 p.1 p.2)
      (get_all_pairs [wsA, wsA2]) = .ok [100] := by
    rw [hpairs]
    simp [mapE, hfs]
  have hsim : get_similarity R0 [wsA, wsA2] = .ok 100 := by
    rw [get_similarity, hm, hpairs]
    norm_num
  refine ⟨fun a b => Nat.zero_le _, by decide, hsim, ?_⟩
  exact (auto_manage_spec R0 (fun a b => Nat.zero_le _) [wsA, wsA2]
    (by decide) 100 hsim).1.mpr rfl

/-- C8 counterexample: `get_cached` does raise for some storage content:
content that decodes to valid JSON of an unexpected shape (here an object
with no "timestamp" entry) raises `KeyError`, because the `try` covers
only the open/decode step; and a file whose bytes are not valid text
raises `UnicodeDecodeError` out of `json.load`, which the
`except (JSONDecodeError, IOError)` clause does not catch. -/
theorem get_cached_raises :
    get_cached 0 "songs" (.json (.jobj [])) = .error .keyError ∧
    get_cached 0 "songs" .badBytes = .error .unicodeDecodeError :=
  ⟨rfl, rfl⟩

/-- C8 (amended): `get_cached` returns the stored payload only when the
file is readable, decodes to JSON, carries a numeric "timestamp" whose
age is within the 24-hour window, and holds the key's payload; an
unreadable file (`IOError`), JSON-syntax-invalid text
(`JSONDecodeError`) and stale entries are treated as "not found" without
raising — but a file whose bytes are not valid text raises
`UnicodeDecodeError`, and JSON content of an unexpected shape raises
`KeyError`/`TypeError`, out of `get_cached`. -/
theorem get_cached_amended (now : ℚ) (key : String) (fs : FileState) :
    (fs = .ioError ∨ fs = .decodeError → get_cached now key fs = .ok none) ∧
    (∀ j ts payload, fs = .json j →
      jGetItem j "timestamp" = .ok (.jnum ts) →
      ¬ (now - ts > 24 * (60 * 60)) →
      jGetItem j key = .ok payload →
      get_cached now key fs = .ok (some payload)) ∧
    (∀ j ts, fs = .json j →
      jGetItem j "timestamp" = .ok (.jnum ts) →
      now - ts > 24 * (60 * 60) →
      get_cached now key fs = .ok none) ∧
    (∀ p, get_cached now key fs = .ok (some p) →
      ∃ j tsv ts, fs = .json j ∧
        jGetItem j "timestamp" = .ok tsv ∧ pyNum tsv = .ok ts ∧
        ¬ (now - ts > 24 * (60 * 60)) ∧ jGetItem j key = .ok p) ∧
    (fs = .badBytes →
      get_cached now key fs = .error .unicodeDecodeError) := by
  refine ⟨?_, ?_, ?_, ?_, ?_⟩
  · rintro (rfl | rfl) <;> rfl
  · rintro j ts payload rfl hts hfresh hpay
    have hout : cache_outdated now ts = false := by
      simp [cache_outdated, hfresh]
    simp [get_cached, hts, pyNum, hout, hpay]
  · rintro j ts rfl hts hstale
    have hout : cache_outdated now ts = true := by
      simp [cache_outdated, hstale]
    simp [get_cached, hts, pyNum, hout]
  · intro p h
    cases fs with
    | ioError => exact absurd h (by simp [get_cached])
    | badBytes => exact absurd h (by simp [get_cached])
    | decodeError => exact absurd h (by simp [get_cached])
    | json j =>
      simp only [get_cached] at h
      cases hts : jGetItem j "timestamp" with
      | error e => rw [hts] at h; exact absurd h (by simp)
      | ok tsv =>
        rw [hts] at h
        dsimp only [] at h
        cases hnum : pyNum tsv with
        | error e => rw [hnum] at h; exact absurd h (by simp)
        | ok ts =>
          rw [hnum] at h
          dsimp only [] at h
          by_cases hout : cache_outdated now ts = true
          · rw [if_pos hout] at h
            exact absurd h (by simp)
          · rw [if_neg hout] at h
            cases hpay : jGetItem j key with
            | error e => rw [hpay] at h; exact absurd h (by simp)
            | ok payload =>
              rw [hpay] at h
              dsimp only [] at h
              injection h with h
              injection h with h
              subst h
              refine ⟨j, tsv, ts, rfl, hts, hnum, ?_, hpay⟩
              simpa [cache_outdated] using hout
  · rintro rfl
    rfl

theorem get_cached_amended_witness :
    jGetItem (.jobj [("timestamp", .jnum 0), ("songs", .jstr "v")])
        "timestamp" = .ok (.jnum 0) ∧
    get_cached 0 "songs"
        (.json (.jobj [("timestamp", .jnum 0), ("songs", .jstr "v")])) =
      .ok (some (.jstr "v")) := by
  refine ⟨rfl, ?_⟩
  exact (get_cached_amended 0 "songs"
      (.json (.jobj [("timestamp", .jnum 0), ("songs", .jstr "v")]))).2.1
    (.jobj [("timestamp", .jnum 0), ("songs", .jstr "v")]) 0 (.jstr "v")
    rfl rfl (by norm_num) rfl
